import Mathlib

/-!
Shallow embedding of `src/bspline_mutual_information/bspline_mutual_information.py`
(B-spline binning and mutual-information estimation after Daub et al. 2004).

Floating-point values are idealised as rationals (`ℚ`) for the discrete pipeline
and as reals (`ℝ`) for the entropy arithmetic; `NaN` missing-value markers are
modelled with `Option ℚ` (`none` = NaN).  Python exceptions are modelled with an
explicit error type: `ValueError` (raised by `min`/`max` on an empty sequence and
by `scipy.interpolate.BSpline.design_matrix` on bad knots or out-of-domain /
NaN evaluation points — the spec's InvalidInputError) and `IndexError`
(raised by `knots[bins]` when `order = 0`).
-/

/-- A raised Python exception kind, as far as the estimator can observe it:
`mutual_information` catches `ValueError` only. -/
inductive PyErr where
  | valueError
  | indexError
deriving DecidableEq

/-- The triangular de Boor scheme, as run by scipy's design-matrix evaluator:
`deBoorB x m k r` is the value at `x` of the `r`-th of the `k + 1` B-spline basis
functions (of degree `k`, over the integer knot vector) that are supported on the
knot interval `[m, m + 1]`; that is, the polynomial piece of basis function
`B (m - k + r) k` on that interval, evaluated at `x`.  Entries with `r > k`
are `0`. -/
def deBoorB (x : ℚ) (m : ℕ) : ℕ → ℕ → ℚ
  | 0, r => if r = 0 then 1 else 0
  | (j+1), r =>
      (((m : ℚ) + (r : ℚ) + 1 - x) * deBoorB x m j r
        + (x - ((m : ℚ) + (r : ℚ) - ((j : ℚ) + 1)))
          * (if r = 0 then 0 else deBoorB x m j (r - 1)))
        / ((j : ℚ) + 1)

/-- The knot interval selected by scipy's `find_interval` for an evaluation
point `x` of the base interval `[degree, bins]`: the integer part of `x`,
except that the right endpoint `x = bins` is chopped into the last interval
`bins - 1`. -/
def binInterval (bins : ℕ) (x : ℚ) : ℕ :=
  if x = (bins : ℚ) then bins - 1 else (Rat.floor x).toNat

/-- One row of the design matrix returned by `BSpline.design_matrix`: the `bins`
basis-function values at the point `x`.  Row entries outside the `k + 1` columns
`binInterval bins x - k .. binInterval bins x` are `0`. -/
def designRow (bins k : ℕ) (x : ℚ) : List ℚ :=
  (List.range bins).map (fun c =>
    if binInterval bins x - k ≤ c then deBoorB x (binInterval bins x) k (c - (binInterval bins x - k)) else 0)

/-- Python's builtin `min` over a nonempty sequence (`0` for the empty list,
which in the source raises instead and is guarded separately). -/
def listMin : List ℚ → ℚ
  | [] => 0
  | a :: as => as.foldl min a

/-- Python's builtin `max` over a nonempty sequence. -/
def listMax : List ℚ → ℚ
  | [] => 0
  | a :: as => as.foldl max a

/-- `_transform_data` (renamed: Lean names cannot begin with an underscore):
the affine map of the observed data range `[mn, mx]` onto the B-spline base
interval `[bspline_min, bspline_max] = [order - 1, bins]`, i.e.
`(v - min) * (bspline_max - bspline_min) / (max - min) + bspline_min`. -/
def transform_data (mn mx : ℚ) (bins k : ℕ) (v : ℚ) : ℚ :=
  (v - mn) * ((bins : ℚ) - (k : ℚ)) / (mx - mn) + (k : ℚ)

/-- `bspline_bin(data, bins, order)`.  Mirrors the source together with the
checks its scipy collaborator performs:
* `order = 0` makes `knots[bins]` (an index into `range(0, bins + order)`)
  raise `IndexError`;
* `min(data)` / `max(data)` on an empty array raise `ValueError`;
* a degenerate range `max(data) = min(data)` makes `_transform_data` divide by
  zero, producing NaNs which `design_matrix` rejects with `ValueError`;
* `design_matrix` requires at least `2*(order-1) + 2` knots
  (`ValueError "Length t is not enough"` otherwise, i.e. when `bins < order`);
* `design_matrix(..., extrapolate=False)` rejects evaluation points outside the
  base interval `[order - 1, bins]` with `ValueError "Out of bounds"`.
Otherwise it returns the dense design matrix, one `designRow` per data value. -/
def bspline_bin (data : List ℚ) (bins order : ℕ) :
    Except PyErr (List (List ℚ)) :=
  if order = 0 then .error .indexError
  else if data = [] then .error .valueError
  else if listMax data = listMin data then .error .valueError
  else if bins + order < 2 * order then .error .valueError
  else if (data.map (transform_data (listMin data) (listMax data) bins (order - 1))).any
      (fun t => decide (t < ((order - 1 : ℕ) : ℚ)) || decide ((bins : ℚ) < t)) then
    .error .valueError
  else .ok ((data.map (transform_data (listMin data) (listMax data) bins (order - 1))).map
    (designRow bins (order - 1)))

/-- A value of a raw array-like handed to `mutual_information`: a number, a
float NaN, or Python's `None`. -/
inductive PyVal where
  | num (q : ℚ)
  | nan
  | pynone
deriving DecidableEq

/-- The coercion performed by `np.array(x, dtype=float)` on each element:
numbers are kept, NaN stays NaN and Python `None` is converted to NaN
(both modelled as `Option.none`). -/
def coerceVal : PyVal → Option ℚ
  | .num q => some q
  | .nan => none
  | .pynone => none

/-- Replacing the `None` missing-value marker by the NaN one. -/
def noneAsNan : PyVal → PyVal
  | .pynone => .nan
  | v => v

/-- The index pairs where both arrays are defined (`~np.isnan(x) & ~np.isnan(y)`),
carrying the two values: `x[xy_defined]` zipped with `y[xy_defined]`. -/
def definedPairs (x y : List (Option ℚ)) : List (ℚ × ℚ) :=
  (x.zip y).filterMap (fun p =>
    match p with
    | (some a, some b) => some (a, b)
    | _ => none)

/-- `x_defined_vals = x[xy_defined]`. -/
def xDef (x y : List (Option ℚ)) : List ℚ := (definedPairs x y).map Prod.fst

/-- `y_defined_vals = y[xy_defined]`. -/
def yDef (x y : List (Option ℚ)) : List ℚ := (definedPairs x y).map Prod.snd

/-- The number of positions where both arrays are defined. -/
def countDefined (x y : List (Option ℚ)) : ℕ := (definedPairs x y).length

/-- The object bound to `xy_defined`: `np.where` applied to a 1-D mask returns
a 1-TUPLE whose sole component is the array of defined indices; modelled as a
singleton list holding the index list.  In particular its Python `len` is `1`,
never the number of defined positions. -/
def xyDefinedTuple (x y : List (Option ℚ)) : List (List ℕ) :=
  [(List.range x.length).filter
    (fun i => (x.getD i none).isSome && (y.getD i none).isSome)]

/-- `np.sum(M, axis=0)[j]`: the sum of column `j` of a design matrix. -/
def colSum (M : List (List ℚ)) (j : ℕ) : ℚ :=
  (M.map (fun row => row.getD j 0)).sum

/-- Entry `(j, l)` of `np.matmul(np.transpose(X), Y)`:
`sum_i X[i][j] * Y[i][l]`. -/
def jointSum (X Y : List (List ℚ)) (j l : ℕ) : ℚ :=
  ((X.zip Y).map (fun rc => rc.1.getD j 0 * rc.2.getD l 0)).sum

/-- `p_x` (resp. `p_y`): the column sums of a design matrix divided by the
number of defined values of that variable, as a length-`bins` vector. -/
def marginalProb (M : List (List ℚ)) (bins nDef : ℕ) : List ℚ :=
  (List.range bins).map (fun j => colSum M j / (nDef : ℚ))

/-- `p_x_y`: `(np.transpose(X) @ Y / n).flatten('F')` — the column-major
(Fortran-order) flattening puts matrix entry `(j, l)` at flat position
`l * bins + j`, so flat position `t` holds entry `(t % bins, t / bins)`;
the divisor `n` is the ORIGINAL length `len(x)`. -/
def jointProb (X Y : List (List ℚ)) (bins n : ℕ) : List ℚ :=
  (List.range (bins * bins)).map
    (fun t => jointSum X Y (t % bins) (t / bins) / (n : ℚ))

/-- The discrete part of `mutual_information`'s control flow, up to (and
including) the two binner calls. -/
inductive OutcomeA where
  | configError
  | uncaught
  | notComputable
  | probs (X Y : List (List ℚ))
deriving DecidableEq

/-- The control flow of `mutual_information` on already-coerced arrays:
* `spline_order > 1 and correct` raises `ValueError` (ConfigurationError);
* an empty `x` makes `len(xy_defined)/len(x)` raise `ZeroDivisionError`
  (uncaught);
* the overlap gate compares `len(xy_defined) / len(x)` — and `xy_defined` is
  the 1-tuple returned by `np.where`, so its length is `1` — against `min_def`,
  returning the `None` sentinel when smaller;
* each binner `ValueError` is caught and converted to the `None` sentinel,
  while an `IndexError` (only possible for `spline_order = 0`) propagates;
* otherwise both design matrices are produced. -/
def miOutcomeA (x y : List (Option ℚ)) (bins order : ℕ) (correct : Bool)
    (min_def : ℚ) : OutcomeA :=
  if 1 < order ∧ correct = true then .configError
  else if x = [] then .uncaught
  else if ((xyDefinedTuple x y).length : ℚ) / (x.length : ℚ) < min_def then .notComputable
  else
    match bspline_bin (xDef x y) bins order, bspline_bin (yDef x y) bins order with
    | .error .indexError, _ => .uncaught
    | .error .valueError, _ => .notComputable
    | .ok _, .error .indexError => .uncaught
    | .ok _, .error .valueError => .notComputable
    | .ok X, .ok Y => .probs X Y

/-- Result of `mutual_information`: a raised ConfigurationError, another
uncaught exception, the `None` (NotComputable) sentinel, or a float. -/
inductive MIResult where
  | configError
  | uncaught
  | notComputable
  | value (r : ℝ)

/-- One term of `-np.nansum(p * np.log2(p))`: for `p > 0` the ordinary
`p * log2 p`; for `p = 0` the float term is `0 * (-inf) = NaN`, and for `p < 0`
the float term is `p * NaN = NaN`; `nansum` skips NaN terms, so both
contribute `0`. -/
noncomputable def nanEntropyTerm (q : ℚ) : ℝ :=
  if q ≤ 0 then 0 else (q : ℝ) * Real.logb 2 (q : ℝ)

/-- `-np.nansum(p * np.log2(p))`: Shannon entropy with NaN terms skipped. -/
noncomputable def entropyNansum (p : List ℚ) : ℝ :=
  -((p.map nanEntropyTerm).sum)

/-- `mutual_information(x, y, bins, spline_order, correct, min_def)` on
already-coerced float arrays.  In the computed case,
`mi = H(p_x) + H(p_y) - H(p_x_y)`, with the finite-size correction
`(bins - 1) / (2 * len(x_defined_vals))` subtracted when `correct` is set. -/
noncomputable def mutual_information (x y : List (Option ℚ)) (bins order : ℕ)
    (correct : Bool) (min_def : ℚ) : MIResult :=
  match miOutcomeA x y bins order correct min_def with
  | .configError => .configError
  | .uncaught => .uncaught
  | .notComputable => .notComputable
  | .probs X Y =>
    let p_x := marginalProb X bins (xDef x y).length
    let p_y := marginalProb Y bins (yDef x y).length
    let p_x_y := jointProb X Y bins x.length
    let mi := entropyNansum p_x + entropyNansum p_y - entropyNansum p_x_y
    .value (if correct then mi - ((bins : ℝ) - 1) / (2 * ((xDef x y).length : ℝ)) else mi)

/-- The public entry point: both array-likes are coerced with
`np.array(_, dtype=float)` before any further processing. -/
noncomputable def mutual_information_py (x y : List PyVal) (bins order : ℕ)
    (correct : Bool) (min_def : ℚ) : MIResult :=
  mutual_information (x.map coerceVal) (y.map coerceVal) bins order correct min_def

/-! ### Definitions written from the specification's words, for comparison -/

/-- Modelled from the spec: the overlap fraction of §4.2, "computed as
(count of defined-index positions) / len(x), not the count of the raw
index-array object". -/
def definedFraction (x y : List (Option ℚ)) : ℚ :=
  (countDefined x y : ℚ) / (x.length : ℚ)

/-- Modelled from the spec: `p_x[j] = (sum over i of x_design[i][j]) / len(x_def)`. -/
def specMarginal (M : List (List ℚ)) (bins nDef : ℕ) : List ℚ :=
  (List.range bins).map (fun j =>
    (∑ i in Finset.range M.length, (M.getD i []).getD j 0) / (nDef : ℚ))

/-- Modelled from the spec: `p_x_y = flatten_column_major(transpose(x_design)
· y_design / len(x))`, so flat entry `t` is `(sum over i of
x_design[i][t % bins] * y_design[i][t / bins]) / len(x)`. -/
def specJoint (X Y : List (List ℚ)) (bins n : ℕ) : List ℚ :=
  (List.range (bins * bins)).map (fun t =>
    (∑ i in Finset.range X.length,
      (X.getD i []).getD (t % bins) 0 * (Y.getD i []).getD (t / bins) 0) / (n : ℚ))

/-- Modelled from the spec: `H(p) = -sum_j(p[j] * log2(p[j]))`, "treating any
term where `p[j] == 0` as contributing `0` (not NaN)". -/
noncomputable def entropySpec (p : List ℚ) : ℝ :=
  -((p.map (fun q : ℚ => if q = 0 then (0 : ℝ) else (q : ℝ) * Real.logb 2 (q : ℝ))).sum)

/-- A sample with at least two distinct values (so `max(data) > min(data)`). -/
def Nonconst (data : List ℚ) : Prop := ∃ u ∈ data, ∃ v ∈ data, u ≠ v

/-- A sample whose values are all identical. -/
def ConstVals (data : List ℚ) : Prop := ∀ u ∈ data, ∀ v ∈ data, u = v

/-! ### Equation lemmas for `mutual_information` -/

theorem mutual_information_configError {x y : List (Option ℚ)} {bins order : ℕ}
    {c : Bool} {md : ℚ} (h : miOutcomeA x y bins order c md = .configError) :
    mutual_information x y bins order c md = .configError := by
  unfold mutual_information; rw [h]

theorem mutual_information_uncaught {x y : List (Option ℚ)} {bins order : ℕ}
    {c : Bool} {md : ℚ} (h : miOutcomeA x y bins order c md = .uncaught) :
    mutual_information x y bins order c md = .uncaught := by
  unfold mutual_information; rw [h]

theorem mutual_information_nc {x y : List (Option ℚ)} {bins order : ℕ}
    {c : Bool} {md : ℚ} (h : miOutcomeA x y bins order c md = .notComputable) :
    mutual_information x y bins order c md = .notComputable := by
  unfold mutual_information; rw [h]

theorem mutual_information_probs {x y : List (Option ℚ)} {bins order : ℕ}
    {c : Bool} {md : ℚ} {X Y : List (List ℚ)}
    (h : miOutcomeA x y bins order c md = .probs X Y) :
    mutual_information x y bins order c md =
      .value (if c then
          entropyNansum (marginalProb X bins (xDef x y).length)
            + entropyNansum (marginalProb Y bins (yDef x y).length)
            - entropyNansum (jointProb X Y bins x.length)
            - ((bins : ℝ) - 1) / (2 * ((xDef x y).length : ℝ))
        else
          entropyNansum (marginalProb X bins (xDef x y).length)
            + entropyNansum (marginalProb Y bins (yDef x y).length)
            - entropyNansum (jointProb X Y bins x.length)) := by
  unfold mutual_information; rw [h]

/-! ### C2: configuration check -/

/-- C2: for every input, `mutual_information` raises the ConfigurationError
(`ValueError`) whenever `spline_order > 1` and `correct` is true; the check is
the first statement of the function, so the rejection is unconditional — it
happens for every input, before any filtering, binning or probability
computation. -/
theorem config_rejects_correct_with_high_order
    (x y : List (Option ℚ)) (bins order : ℕ) (c : Bool) (md : ℚ)
    (h1 : 1 < order) (h2 : c = true) :
    mutual_information x y bins order c md = .configError := by
  apply mutual_information_configError
  unfold miOutcomeA
  rw [if_pos ⟨h1, h2⟩]

theorem config_rejects_correct_with_high_order_witness :
    mutual_information [some 1] [some 1] 10 2 true 0 = .configError :=
  config_rejects_correct_with_high_order [some 1] [some 1] 10 2 true 0
    (by norm_num) rfl

/-! ### C1: the `min_def` overlap gate miscounts -/

/-- C1 fails on the code: the gate at line 243 computes
`len(xy_defined) / len(x)` where `xy_defined` is the TUPLE returned by
`np.where`, whose `len` is `1` — not the number of defined positions.  With
`x = y = [1, 2, 3, 4, 5]` (no NaN at all) and `min_def = 3/5`, every position
is defined, so the true defined fraction is `1 ≥ 3/5` and the claim (and the
docstring) say a float must be returned; the code compares `1/5 < 3/5` and
returns the `None` sentinel instead. -/
theorem gate_counts_tuple_not_positions :
    mutual_information [some 1, some 2, some 3, some 4, some 5]
        [some 1, some 2, some 3, some 4, some 5] 10 1 false (3/5)
      = .notComputable
    ∧ definedFraction [some 1, some 2, some 3, some 4, some 5]
        [some 1, some 2, some 3, some 4, some 5] = 1
    ∧ ¬ ((1 : ℚ) < 3/5) := by
  refine ⟨mutual_information_nc ?_, ?_, by norm_num⟩
  · unfold miOutcomeA
    rw [if_neg (by simp), if_neg (by simp), if_pos]
    norm_num [xyDefinedTuple]
  · norm_num [definedFraction, countDefined, definedPairs, List.filterMap_cons]

/-! ### C10: None is coerced to NaN on entry -/

/-- C10: `mutual_information` coerces both inputs with
`np.array(_, dtype=float)` on entry, which turns Python `None` into NaN; hence
a `None` element behaves exactly like a NaN element, and callers may mix the
two markers freely: replacing every `None` by NaN never changes the result. -/
theorem none_coerced_like_nan (x y : List PyVal) (bins order : ℕ)
    (c : Bool) (md : ℚ) :
    mutual_information_py x y bins order c md
      = mutual_information_py (x.map noneAsNan) (y.map noneAsNan) bins order c md
    ∧ coerceVal .pynone = coerceVal .nan := by
  have hfun : coerceVal ∘ noneAsNan = coerceVal := by
    funext v; cases v <;> rfl
  constructor
  · unfold mutual_information_py
    rw [List.map_map, List.map_map, hfun]
  · rfl

/-! ### Values of the de Boor scheme: support, partition of unity, positivity -/

theorem deBoorB_eq_zero (x : ℚ) (m : ℕ) :
    ∀ k r, k < r → deBoorB x m k r = 0 := by
  intro k
  induction k with
  | zero =>
    intro r hr
    have : r ≠ 0 := by omega
    simp [deBoorB, this]
  | succ j ih =>
    intro r hr
    have hr0 : r ≠ 0 := by omega
    have h1 : deBoorB x m j r = 0 := ih r (by omega)
    have h2 : deBoorB x m j (r - 1) = 0 := ih (r - 1) (by omega)
    simp [deBoorB, hr0, h1, h2]

theorem list_range_map_sum {M : Type} [AddCommMonoid M] (f : ℕ → M) (n : ℕ) :
    ((List.range n).map f).sum = ∑ i in Finset.range n, f i := by
  induction n with
  | zero => simp
  | succ n ih =>
    rw [List.range_succ, List.map_append, List.sum_append, Finset.sum_range_succ, ih]
    simp

theorem deBoorB_sum (x : ℚ) (m : ℕ) (k : ℕ) :
    ∑ r in Finset.range (k+1), deBoorB x m k r = 1 := by
  induction k with
  | zero => simp [deBoorB]
  | succ j ih =>
    have hstep : ∀ r, deBoorB x m (j+1) r =
        (((m : ℚ) + (r : ℚ) + 1 - x) * deBoorB x m j r
          + (x - ((m : ℚ) + (r : ℚ) - ((j : ℚ) + 1)))
            * (if r = 0 then 0 else deBoorB x m j (r - 1)))
          / ((j : ℚ) + 1) := fun r => by rw [deBoorB]
    have hj : ((j : ℚ) + 1) ≠ 0 := by positivity
    calc ∑ r in Finset.range (j+2), deBoorB x m (j+1) r
        = (∑ r in Finset.range (j+2),
            (((m : ℚ) + (r : ℚ) + 1 - x) * deBoorB x m j r
              + (x - ((m : ℚ) + (r : ℚ) - ((j : ℚ) + 1)))
                * (if r = 0 then 0 else deBoorB x m j (r - 1))))
            / ((j : ℚ) + 1) := by
          rw [Finset.sum_div]
          exact Finset.sum_congr rfl (fun r _ => hstep r)
      _ = (∑ r in Finset.range (j+2), ((m : ℚ) + (r : ℚ) + 1 - x) * deBoorB x m j r
            + ∑ r in Finset.range (j+2), (x - ((m : ℚ) + (r : ℚ) - ((j : ℚ) + 1)))
                * (if r = 0 then 0 else deBoorB x m j (r - 1)))
            / ((j : ℚ) + 1) := by
          rw [Finset.sum_add_distrib]
      _ = (∑ r in Finset.range (j+1), ((m : ℚ) + (r : ℚ) + 1 - x) * deBoorB x m j r
            + ∑ r in Finset.range (j+1), (x - ((m : ℚ) + ((r : ℚ) + 1) - ((j : ℚ) + 1)))
                * deBoorB x m j r)
            / ((j : ℚ) + 1) := by
          congr 1
          · congr 1
            · rw [Finset.sum_range_succ, deBoorB_eq_zero x m j (j+1) (by omega),
                mul_zero, add_zero]
            · rw [Finset.sum_range_succ']
              simp [Nat.cast_add]
      _ = (∑ r in Finset.range (j+1), ((j : ℚ) + 1) * deBoorB x m j r)
            / ((j : ℚ) + 1) := by
          rw [← Finset.sum_add_distrib]
          congr 1
          refine Finset.sum_congr rfl (fun r _ => ?_)
          rw [← add_mul]
          ring_nf
      _ = 1 := by
          rw [← Finset.mul_sum, ih, mul_one, div_self hj]

theorem deBoorB_nonneg (x : ℚ) (m : ℕ) (hxl : (m : ℚ) ≤ x) (hxu : x ≤ (m : ℚ) + 1) :
    ∀ k r, 0 ≤ deBoorB x m k r := by
  intro k
  induction k with
  | zero =>
    intro r
    by_cases h : r = 0 <;> simp [deBoorB, h]
  | succ j ih =>
    intro r
    rw [deBoorB]
    apply div_nonneg _ (by positivity)
    apply add_nonneg
    · apply mul_nonneg _ (ih r)
      have : (0 : ℚ) ≤ (r : ℚ) := by positivity
      linarith
    · rcases Nat.eq_zero_or_pos r with h0 | hpos
      · simp [h0]
      · have hne : r ≠ 0 := by omega
        rw [if_neg hne]
        rcases le_or_lt r (j + 1) with hle | hgt
        · apply mul_nonneg _ (ih (r-1))
          have : (r : ℚ) ≤ (j : ℚ) + 1 := by exact_mod_cast hle
          linarith
        · rw [deBoorB_eq_zero x m j (r-1) (by omega), mul_zero]

theorem rat_floor_eq_floor (q : ℚ) : Rat.floor q = ⌊q⌋ := rfl

theorem binInterval_spec (bins k : ℕ) (x : ℚ) (hk : k < bins)
    (h1 : (k : ℚ) ≤ x) (h2 : x ≤ (bins : ℚ)) :
    k ≤ binInterval bins x ∧ binInterval bins x < bins ∧
      ((binInterval bins x : ℚ) ≤ x ∧ x ≤ (binInterval bins x : ℚ) + 1) := by
  unfold binInterval
  by_cases hx : x = (bins : ℚ)
  · rw [if_pos hx]
    have hb1 : 1 ≤ bins := by omega
    have hcast : ((bins - 1 : ℕ) : ℚ) = (bins : ℚ) - 1 := by
      push_cast [hb1]; ring
    refine ⟨by omega, by omega, ?_, ?_⟩
    · rw [hcast, hx]; linarith
    · rw [hcast, hx]; linarith
  · rw [if_neg hx]
    have hfl : ((k : ℤ)) ≤ ⌊x⌋ := by
      rw [Int.le_floor]; exact_mod_cast h1
    have hfl0 : (0 : ℤ) ≤ ⌊x⌋ := le_trans (by positivity) hfl
    have hcast : (((Rat.floor x).toNat : ℕ) : ℚ) = ((⌊x⌋ : ℤ) : ℚ) := by
      rw [rat_floor_eq_floor]
      exact_mod_cast congrArg (fun z => ((z : ℤ) : ℚ)) (Int.toNat_of_nonneg hfl0)
    have hle : ((⌊x⌋ : ℤ) : ℚ) ≤ x := Int.floor_le x
    have hlt : x < ((⌊x⌋ : ℤ) : ℚ) + 1 := Int.lt_floor_add_one x
    have hxlt : x < (bins : ℚ) := lt_of_le_of_ne h2 hx
    have hflb : ⌊x⌋ < (bins : ℤ) := by
      rw [Int.floor_lt]; exact_mod_cast hxlt
    refine ⟨?_, ?_, ?_, ?_⟩
    · have : (k : ℤ) ≤ (Rat.floor x).toNat := by
        rw [rat_floor_eq_floor, Int.toNat_of_nonneg hfl0]; exact hfl
      exact_mod_cast this
    · have : ((Rat.floor x).toNat : ℤ) < (bins : ℤ) := by
        rw [rat_floor_eq_floor, Int.toNat_of_nonneg hfl0]; exact hflb
      exact_mod_cast this
    · rw [hcast]; exact hle
    · rw [hcast]; linarith

theorem sum_shifted_window (B : ℕ → ℚ) (bins a k : ℕ) (hwin : a + k < bins)
    (hzero : ∀ r, k < r → B r = 0) (hsum : ∑ r in Finset.range (k+1), B r = 1) :
    ∑ c in Finset.range bins, (if a ≤ c then B (c - a) else 0) = 1 := by
  rw [Finset.range_eq_Ico,
    ← Finset.sum_Ico_consecutive _ (Nat.zero_le a) (by omega : a ≤ bins)]
  have hlow : ∑ c in Finset.Ico 0 a, (if a ≤ c then B (c - a) else 0) = 0 := by
    refine Finset.sum_eq_zero (fun c hc => ?_)
    have := (Finset.mem_Ico.mp hc).2
    rw [if_neg (by omega)]
  rw [hlow, zero_add]
  rw [Finset.sum_congr rfl
    (fun c hc => if_pos (Finset.mem_Ico.mp hc).1)]
  rw [Finset.sum_Ico_eq_sum_range]
  simp only [Nat.add_sub_cancel_left]
  rw [Finset.range_eq_Ico,
    ← Finset.sum_Ico_consecutive _ (Nat.zero_le (k+1)) (by omega : k + 1 ≤ bins - a)]
  have hhigh : ∑ i in Finset.Ico (k+1) (bins - a), B i = 0 := by
    refine Finset.sum_eq_zero (fun i hi => ?_)
    exact hzero i (by have := (Finset.mem_Ico.mp hi).1; omega)
  rw [hhigh, add_zero, ← Finset.range_eq_Ico]
  exact hsum

theorem designRow_length (bins k : ℕ) (x : ℚ) : (designRow bins k x).length = bins := by
  simp [designRow]

theorem designRow_getD (bins k : ℕ) (x : ℚ) (c : ℕ) (hc : c < bins) :
    (designRow bins k x).getD c 0 =
      if binInterval bins x - k ≤ c then
        deBoorB x (binInterval bins x) k (c - (binInterval bins x - k))
      else 0 := by
  simp [designRow, List.getD_eq_getElem?_getD, List.getElem?_map, List.getElem?_range, hc]

theorem designRow_sum (bins k : ℕ) (x : ℚ) (hk : k < bins)
    (h1 : (k : ℚ) ≤ x) (h2 : x ≤ (bins : ℚ)) :
    (designRow bins k x).sum = 1 := by
  obtain ⟨hkm, hmb, hmx, hxm⟩ := binInterval_spec bins k x hk h1 h2
  unfold designRow
  rw [list_range_map_sum]
  exact sum_shifted_window (deBoorB x (binInterval bins x) k) bins
    (binInterval bins x - k) k (by omega)
    (deBoorB_eq_zero x (binInterval bins x) k)
    (deBoorB_sum x (binInterval bins x) k)

theorem designRow_nonneg (bins k : ℕ) (x : ℚ) (hk : k < bins)
    (h1 : (k : ℚ) ≤ x) (h2 : x ≤ (bins : ℚ)) :
    ∀ q ∈ designRow bins k x, 0 ≤ q := by
  obtain ⟨hkm, hmb, hmx, hxm⟩ := binInterval_spec bins k x hk h1 h2
  intro q hq
  rw [designRow, List.mem_map] at hq
  obtain ⟨c, _, rfl⟩ := hq
  by_cases h : binInterval bins x - k ≤ c
  · rw [if_pos h]
    exact deBoorB_nonneg x (binInterval bins x) hmx hxm k _
  · rw [if_neg h]

theorem designRow_support (bins k : ℕ) (x : ℚ) (hk : k < bins)
    (h1 : (k : ℚ) ≤ x) (h2 : x ≤ (bins : ℚ)) :
    ∀ c, (designRow bins k x).getD c 0 ≠ 0 →
      binInterval bins x - k ≤ c ∧ c < (binInterval bins x - k) + (k + 1) := by
  obtain ⟨hkm, hmb, _, _⟩ := binInterval_spec bins k x hk h1 h2
  intro c hc
  rcases lt_or_ge c bins with hcb | hcb
  · rw [designRow_getD bins k x c hcb] at hc
    by_cases h : binInterval bins x - k ≤ c
    · rw [if_pos h] at hc
      refine ⟨h, ?_⟩
      by_contra hcon
      exact hc (deBoorB_eq_zero x (binInterval bins x) k _ (by omega))
    · rw [if_neg h] at hc
      exact absurd rfl hc
  · exfalso
    apply hc
    rw [List.getD_eq_getElem?_getD, List.getElem?_eq_none]
    · rfl
    · rw [designRow_length]; exact hcb

/-! ### `min` / `max` over lists, transform bounds, binner characterisation -/

theorem foldl_min_le_init (l : List ℚ) (a : ℚ) : l.foldl min a ≤ a := by
  induction l generalizing a with
  | nil => exact le_refl a
  | cons c l ih => exact le_trans (ih (min a c)) (min_le_left a c)

theorem foldl_min_le_mem (l : List ℚ) (a b : ℚ) (h : b ∈ l) : l.foldl min a ≤ b := by
  induction l generalizing a with
  | nil => cases h
  | cons c l ih =>
    rcases List.mem_cons.mp h with rfl | hb
    · exact le_trans (foldl_min_le_init l (min a b)) (min_le_right a b)
    · exact ih (min a c) hb

theorem foldl_min_mem (l : List ℚ) (a : ℚ) : l.foldl min a ∈ a :: l := by
  induction l generalizing a with
  | nil => exact List.mem_singleton.mpr rfl
  | cons c l ih =>
    have h := ih (min a c)
    rcases List.mem_cons.mp h with he | hm
    · rcases min_choice a c with hc | hc
      · exact List.mem_cons.mpr (Or.inl (he.trans hc))
      · refine List.mem_cons.mpr (Or.inr ?_)
        exact List.mem_cons.mpr (Or.inl (he.trans hc))
    · exact List.mem_cons.mpr (Or.inr (List.mem_cons.mpr (Or.inr hm)))

theorem foldl_max_init_le (l : List ℚ) (a : ℚ) : a ≤ l.foldl max a := by
  induction l generalizing a with
  | nil => exact le_refl a
  | cons c l ih => exact le_trans (le_max_left a c) (ih (max a c))

theorem foldl_max_mem_le (l : List ℚ) (a b : ℚ) (h : b ∈ l) : b ≤ l.foldl max a := by
  induction l generalizing a with
  | nil => cases h
  | cons c l ih =>
    rcases List.mem_cons.mp h with rfl | hb
    · exact le_trans (le_max_right a b) (foldl_max_init_le l (max a b))
    · exact ih (max a c) hb

theorem foldl_max_mem (l : List ℚ) (a : ℚ) : l.foldl max a ∈ a :: l := by
  induction l generalizing a with
  | nil => exact List.mem_singleton.mpr rfl
  | cons c l ih =>
    have h := ih (max a c)
    rcases List.mem_cons.mp h with he | hm
    · rcases max_choice a c with hc | hc
      · exact List.mem_cons.mpr (Or.inl (he.trans hc))
      · refine List.mem_cons.mpr (Or.inr ?_)
        exact List.mem_cons.mpr (Or.inl (he.trans hc))
    · exact List.mem_cons.mpr (Or.inr (List.mem_cons.mpr (Or.inr hm)))

theorem listMin_le (l : List ℚ) (b : ℚ) (hb : b ∈ l) : listMin l ≤ b := by
  cases l with
  | nil => cases hb
  | cons a as =>
    rcases List.mem_cons.mp hb with rfl | h
    · exact foldl_min_le_init as b
    · exact foldl_min_le_mem as a b h

theorem le_listMax (l : List ℚ) (b : ℚ) (hb : b ∈ l) : b ≤ listMax l := by
  cases l with
  | nil => cases hb
  | cons a as =>
    rcases List.mem_cons.mp hb with rfl | h
    · exact foldl_max_init_le as b
    · exact foldl_max_mem_le as a b h

theorem listMin_mem (l : List ℚ) (h : l ≠ []) : listMin l ∈ l := by
  cases l with
  | nil => exact absurd rfl h
  | cons a as => exact foldl_min_mem as a

theorem listMax_mem (l : List ℚ) (h : l ≠ []) : listMax l ∈ l := by
  cases l with
  | nil => exact absurd rfl h
  | cons a as => exact foldl_max_mem as a

theorem listMin_lt_listMax (l : List ℚ) (hnc : Nonconst l) :
    listMin l < listMax l := by
  obtain ⟨u, hu, v, hv, huv⟩ := hnc
  rcases lt_or_ge (listMin l) (listMax l) with h | h
  · exact h
  · exfalso
    apply huv
    have h1 := listMin_le l u hu
    have h2 := le_listMax l u hu
    have h3 := listMin_le l v hv
    have h4 := le_listMax l v hv
    linarith

theorem transform_data_bounds (mn mx : ℚ) (bins k : ℕ) (h : mn < mx)
    (hk : k < bins) (v : ℚ) (hv1 : mn ≤ v) (hv2 : v ≤ mx) :
    (k : ℚ) ≤ transform_data mn mx bins k v ∧
      transform_data mn mx bins k v ≤ (bins : ℚ) := by
  unfold transform_data
  have hd : (0 : ℚ) < mx - mn := by linarith
  have hkb : (k : ℚ) < (bins : ℚ) := by exact_mod_cast hk
  have hbk : (0 : ℚ) ≤ (bins : ℚ) - (k : ℚ) := by linarith
  constructor
  · have : 0 ≤ (v - mn) * ((bins : ℚ) - (k : ℚ)) / (mx - mn) :=
      div_nonneg (mul_nonneg (by linarith) hbk) (le_of_lt hd)
    linarith
  · have h2 : (v - mn) * ((bins : ℚ) - (k : ℚ)) / (mx - mn) ≤ (bins : ℚ) - (k : ℚ) := by
      rw [div_le_iff₀ hd]
      nlinarith
    linarith

theorem bspline_bin_ok (data : List ℚ) (bins order : ℕ)
    (h1 : 1 ≤ order) (h2 : order ≤ bins) (hnc : Nonconst data) :
    bspline_bin data bins order =
      .ok ((data.map (transform_data (listMin data) (listMax data) bins (order - 1))).map
        (designRow bins (order - 1))) := by
  obtain ⟨u, hu, v, hv, huv⟩ := hnc
  have hne : data ≠ [] := List.ne_nil_of_mem hu
  have hlt : listMin data < listMax data := listMin_lt_listMax data ⟨u, hu, v, hv, huv⟩
  have hk : order - 1 < bins := by omega
  unfold bspline_bin
  rw [if_neg (by omega : ¬ order = 0), if_neg hne,
    if_neg (ne_of_gt hlt), if_neg (by omega : ¬ bins + order < 2 * order),
    if_neg ?hany]
  case hany =>
    rw [Bool.not_eq_true, List.any_eq_false]
    intro t ht
    rw [List.mem_map] at ht
    obtain ⟨w, hw, rfl⟩ := ht
    obtain ⟨hb1, hb2⟩ := transform_data_bounds (listMin data) (listMax data) bins
      (order - 1) hlt hk w (listMin_le data w hw) (le_listMax data w hw)
    simp only [Bool.or_eq_true, decide_eq_true_eq, not_or, not_lt]
    exact ⟨hb1, hb2⟩

theorem bspline_bin_const_err (data : List ℚ) (bins order : ℕ) (h1 : 1 ≤ order)
    (hc : ConstVals data) : bspline_bin data bins order = .error .valueError := by
  unfold bspline_bin
  rw [if_neg (by omega : ¬ order = 0)]
  by_cases hne : data = []
  · rw [if_pos hne]
  · rw [if_neg hne, if_pos (hc _ (listMax_mem data hne) _ (listMin_mem data hne))]

theorem bspline_bin_small_bins (data : List ℚ) (bins order : ℕ)
    (h1 : 1 ≤ order) (h2 : bins < order) :
    bspline_bin data bins order = .error .valueError := by
  unfold bspline_bin
  rw [if_neg (by omega : ¬ order = 0)]
  by_cases hne : data = []
  · rw [if_pos hne]
  · rw [if_neg hne]
    by_cases hmm : listMax data = listMin data
    · rw [if_pos hmm]
    · rw [if_neg hmm, if_pos (by omega : bins + order < 2 * order)]

theorem bspline_bin_zero_order (data : List ℚ) (bins : ℕ) :
    bspline_bin data bins 0 = .error .indexError := by
  unfold bspline_bin
  rw [if_pos rfl]

theorem bspline_bin_ne_indexError (data : List ℚ) (bins order : ℕ)
    (h : 1 ≤ order) :
    bspline_bin data bins order ≠ .error .indexError := by
  unfold bspline_bin
  rw [if_neg (by omega : ¬ order = 0)]
  split
  · exact fun hcon => PyErr.noConfusion (Except.error.inj hcon)
  · split
    · exact fun hcon => PyErr.noConfusion (Except.error.inj hcon)
    · split
      · exact fun hcon => PyErr.noConfusion (Except.error.inj hcon)
      · split
        · exact fun hcon => PyErr.noConfusion (Except.error.inj hcon)
        · exact fun hcon => Except.noConfusion hcon

/-! ### C4: row properties of the design matrix -/

/-- C4 fails as stated: for `order > bins` (so in particular for `bins = 1`,
`order = 2`, sample `[1, 2]`, all within the claim's quantification), scipy's
`design_matrix` rejects the knot vector (`len(t) = bins + order` is smaller
than the required `2*(order-1) + 2`) with a `ValueError`, so no design matrix
is returned at all. -/
theorem design_matrix_rows_cex :
    ¬ ∃ M, bspline_bin ([1, 2] : List ℚ) 1 2 = Except.ok M := by
  rintro ⟨M, hM⟩
  rw [bspline_bin_small_bins ([1, 2] : List ℚ) 1 2 (by norm_num) (by norm_num)] at hM
  exact Except.noConfusion hM

/-- C4, amended: for every non-constant sample and all `1 ≤ order ≤ bins`,
`bspline_bin` returns a design matrix with one row per sample value in which
every row sums exactly to `1` (hence within `1e-9`), every entry is
non-negative, and the nonzero entries of each row lie in a window of `order`
consecutive columns; for `bins < order` it instead fails with `ValueError`
(the knot vector is too short for the requested degree). -/
theorem design_matrix_row_props :
    (∀ (data : List ℚ) (bins order : ℕ), 1 ≤ order → order ≤ bins →
      Nonconst data →
      ∃ M, bspline_bin data bins order = Except.ok M ∧ M.length = data.length ∧
        ∀ row ∈ M, row.sum = 1 ∧ (∀ q ∈ row, 0 ≤ q) ∧
          ∃ a, ∀ c, row.getD c 0 ≠ 0 → a ≤ c ∧ c < a + order)
    ∧ (∀ (data : List ℚ) (bins order : ℕ), 1 ≤ order → bins < order →
        bspline_bin data bins order = Except.error PyErr.valueError) := by
  constructor
  · intro data bins order h1 h2 hnc
    refine ⟨_, bspline_bin_ok data bins order h1 h2 hnc, by simp, ?_⟩
    intro row hrow
    rw [List.mem_map] at hrow
    obtain ⟨t, ht, rfl⟩ := hrow
    rw [List.mem_map] at ht
    obtain ⟨w, hw, rfl⟩ := ht
    have hne : data ≠ [] := by
      rintro rfl
      obtain ⟨u, hu, -⟩ := hnc
      cases hu
    have hlt := listMin_lt_listMax data hnc
    have hk : order - 1 < bins := by omega
    obtain ⟨hb1, hb2⟩ := transform_data_bounds (listMin data) (listMax data) bins
      (order - 1) hlt hk w (listMin_le data w hw) (le_listMax data w hw)
    refine ⟨designRow_sum bins (order - 1) _ hk hb1 hb2,
      designRow_nonneg bins (order - 1) _ hk hb1 hb2,
      binInterval bins (transform_data (listMin data) (listMax data) bins (order - 1) w)
        - (order - 1), ?_⟩
    intro c hc
    obtain ⟨hA, hB⟩ := designRow_support bins (order - 1) _ hk hb1 hb2 c hc
    exact ⟨hA, by omega⟩
  · intro data bins order h1 h2
    exact bspline_bin_small_bins data bins order h1 h2

theorem design_matrix_row_props_witness :
    (∃ M, bspline_bin ([1, 2, 3] : List ℚ) 3 2 = Except.ok M ∧
        M.length = ([1, 2, 3] : List ℚ).length ∧
        ∀ row ∈ M, row.sum = 1 ∧ (∀ q ∈ row, 0 ≤ q) ∧
          ∃ a, ∀ c, row.getD c 0 ≠ 0 → a ≤ c ∧ c < a + 2)
    ∧ bspline_bin ([1, 2] : List ℚ) 1 2 = Except.error PyErr.valueError :=
  ⟨design_matrix_row_props.1 [1, 2, 3] 3 2 (by norm_num) (by norm_num)
      ⟨1, by norm_num, 2, by norm_num, by norm_num⟩,
    design_matrix_row_props.2 [1, 2] 1 2 (by norm_num) (by norm_num)⟩

/-! ### C5: order 1 is hard one-hot binning -/

/-- C5: for every non-constant sample and every `bins ≥ 1`, `bspline_bin` with
`order = 1` returns a matrix with one length-`bins` row per sample value, each
row having exactly one entry equal to `1` and all other entries `0` (this
covers every row, including the one for the sample's maximum value, whose
evaluation point sits at the right end of the spline domain and is chopped
into the last bin). -/
theorem order_one_hard_binning (data : List ℚ) (bins : ℕ) (hb : 1 ≤ bins)
    (hnc : Nonconst data) :
    ∃ M, bspline_bin data bins 1 = Except.ok M ∧ M.length = data.length ∧
      ∀ row ∈ M, row.length = bins ∧ ∃ c < bins, row.getD c 0 = 1 ∧
        ∀ c' < bins, c' ≠ c → row.getD c' 0 = 0 := by
  refine ⟨_, bspline_bin_ok data bins 1 (le_refl 1) hb hnc, by simp, ?_⟩
  simp only [Nat.sub_self]
  intro row hrow
  rw [List.mem_map] at hrow
  obtain ⟨t, ht, rfl⟩ := hrow
  rw [List.mem_map] at ht
  obtain ⟨w, hw, rfl⟩ := ht
  have hne : data ≠ [] := by
    rintro rfl
    obtain ⟨u, hu, -⟩ := hnc
    cases hu
  have hlt := listMin_lt_listMax data hnc
  have hk : (0 : ℕ) < bins := hb
  obtain ⟨hb1, hb2⟩ := transform_data_bounds (listMin data) (listMax data) bins
    0 hlt hk w (listMin_le data w hw) (le_listMax data w hw)
  set t := transform_data (listMin data) (listMax data) bins 0 w with hts
  obtain ⟨-, hmb, -, -⟩ := binInterval_spec bins 0 t hk hb1 hb2
  refine ⟨designRow_length bins 0 t, binInterval bins t, hmb, ?_, ?_⟩
  · rw [designRow_getD bins 0 t _ hmb, if_pos (by omega), Nat.sub_zero,
      Nat.sub_self]
    simp [deBoorB]
  · intro c' hc' hne'
    rw [designRow_getD bins 0 t c' hc', Nat.sub_zero]
    by_cases h : binInterval bins t ≤ c'
    · rw [if_pos h]
      have : c' - binInterval bins t ≠ 0 := by omega
      simp [deBoorB, this]
    · rw [if_neg h]

theorem order_one_hard_binning_witness :
    ∃ M, bspline_bin ([1, 2, 3] : List ℚ) 2 1 = Except.ok M ∧
      M.length = ([1, 2, 3] : List ℚ).length ∧
      ∀ row ∈ M, row.length = 2 ∧ ∃ c < 2, row.getD c 0 = 1 ∧
        ∀ c' < 2, c' ≠ c → row.getD c' 0 = 0 :=
  order_one_hard_binning [1, 2, 3] 2 (by norm_num)
    ⟨1, by norm_num, 2, by norm_num, by norm_num⟩

/-! ### C3: degenerate (constant) samples -/

/-- C3: a constant-valued sample makes the domain transform degenerate, and
`bspline_bin` fails with the raised `ValueError` (InvalidInputError) rather
than returning a NaN matrix; and whenever either NaN-filtered sub-sample is
constant-valued, `mutual_information` (called with a valid configuration, so
that the estimator reaches the binning stage at all) catches that error and
returns the `None` sentinel instead of propagating it. -/
theorem constant_input_handling :
    (∀ (data : List ℚ) (bins order : ℕ), 1 ≤ order → data ≠ [] →
        ConstVals data →
        bspline_bin data bins order = Except.error PyErr.valueError)
    ∧ (∀ (x y : List (Option ℚ)) (bins order : ℕ) (c : Bool) (md : ℚ),
        ¬ (1 < order ∧ c = true) → 1 ≤ order → x ≠ [] →
        (ConstVals (xDef x y) ∨ ConstVals (yDef x y)) →
        mutual_information x y bins order c md = MIResult.notComputable) := by
  constructor
  · intro data bins order h1 _ hc
    exact bspline_bin_const_err data bins order h1 hc
  · intro x y bins order c md hcfg h1 hxne hconst
    apply mutual_information_nc
    unfold miOutcomeA
    rw [if_neg hcfg, if_neg hxne]
    by_cases hgate : ((xyDefinedTuple x y).length : ℚ) / (x.length : ℚ) < md
    · rw [if_pos hgate]
    · rw [if_neg hgate]
      rcases hconst with hcx | hcy
      · rw [bspline_bin_const_err (xDef x y) bins order h1 hcx]
      · cases hbx : bspline_bin (xDef x y) bins order with
        | error e =>
          cases e with
          | valueError => rfl
          | indexError => exact absurd hbx (bspline_bin_ne_indexError _ _ _ h1)
        | ok X =>
          rw [bspline_bin_const_err (yDef x y) bins order h1 hcy]

theorem constant_input_handling_witness :
    bspline_bin ([1, 1] : List ℚ) 5 1 = Except.error PyErr.valueError
    ∧ mutual_information [some 1, some 1] [some 2, some 3] 5 1 false 0
        = MIResult.notComputable :=
  ⟨constant_input_handling.1 [1, 1] 5 1 (by norm_num) (by simp)
      (by intro u hu v hv; simp at hu hv; rw [hu, hv]),
    constant_input_handling.2 [some 1, some 1] [some 2, some 3] 5 1 false 0
      (by simp) (by norm_num) (by simp)
      (Or.inl (by
        have hx : xDef [some 1, some 1] [some 2, some 3] = [1, 1] := by
          simp [xDef, definedPairs, List.filterMap_cons]
        rw [hx]
        intro u hu v hv
        simp at hu hv
        rw [hu, hv]))⟩

/-! ### Inversion of the estimator's computed case; probability vectors -/

theorem xDef_length (x y : List (Option ℚ)) :
    (xDef x y).length = countDefined x y := by
  simp [xDef, countDefined]

theorem yDef_length (x y : List (Option ℚ)) :
    (yDef x y).length = countDefined x y := by
  simp [yDef, countDefined]

theorem miOutcomeA_probs_inv {x y : List (Option ℚ)} {bins order : ℕ}
    {c : Bool} {md : ℚ} {X Y : List (List ℚ)}
    (h : miOutcomeA x y bins order c md = OutcomeA.probs X Y) :
    bspline_bin (xDef x y) bins order = Except.ok X ∧
      bspline_bin (yDef x y) bins order = Except.ok Y ∧ x ≠ [] := by
  unfold miOutcomeA at h
  by_cases hcfg : 1 < order ∧ c = true
  · rw [if_pos hcfg] at h
    exact OutcomeA.noConfusion h
  · rw [if_neg hcfg] at h
    by_cases hx : x = []
    · rw [if_pos hx] at h
      exact OutcomeA.noConfusion h
    · rw [if_neg hx] at h
      by_cases hg : ((xyDefinedTuple x y).length : ℚ) / (x.length : ℚ) < md
      · rw [if_pos hg] at h
        exact OutcomeA.noConfusion h
      · rw [if_neg hg] at h
        cases hbx : bspline_bin (xDef x y) bins order with
        | error e =>
          rw [hbx] at h
          cases e <;> exact OutcomeA.noConfusion h
        | ok X' =>
          rw [hbx] at h
          cases hby : bspline_bin (yDef x y) bins order with
          | error e =>
            rw [hby] at h
            cases e <;> exact OutcomeA.noConfusion h
          | ok Y' =>
            rw [hby] at h
            injection h with h1 h2
            subst h1
            subst h2
            exact ⟨rfl, rfl, hx⟩

theorem bspline_bin_ok_inv {data : List ℚ} {bins order : ℕ} {X : List (List ℚ)}
    (h : bspline_bin data bins order = Except.ok X) :
    1 ≤ order ∧ order ≤ bins ∧
      X = (data.map (transform_data (listMin data) (listMax data) bins (order - 1))).map
        (designRow bins (order - 1)) ∧
      ∀ t ∈ data.map (transform_data (listMin data) (listMax data) bins (order - 1)),
        ((order - 1 : ℕ) : ℚ) ≤ t ∧ t ≤ (bins : ℚ) := by
  unfold bspline_bin at h
  by_cases h0 : order = 0
  · rw [if_pos h0] at h
    exact Except.noConfusion h
  · rw [if_neg h0] at h
    by_cases hne : data = []
    · rw [if_pos hne] at h
      exact Except.noConfusion h
    · rw [if_neg hne] at h
      by_cases hmm : listMax data = listMin data
      · rw [if_pos hmm] at h
        exact Except.noConfusion h
      · rw [if_neg hmm] at h
        by_cases hb : bins + order < 2 * order
        · rw [if_pos hb] at h
          exact Except.noConfusion h
        · rw [if_neg hb] at h
          by_cases hany : ((data.map (transform_data (listMin data) (listMax data) bins
              (order - 1))).any
                (fun t => decide (t < ((order - 1 : ℕ) : ℚ)) || decide ((bins : ℚ) < t))) = true
          · rw [if_pos hany] at h
            exact Except.noConfusion h
          · rw [if_neg hany] at h
            injection h with hX
            refine ⟨by omega, by omega, hX.symm, ?_⟩
            intro t ht
            rw [Bool.not_eq_true, List.any_eq_false] at hany
            have h2 := hany t ht
            simp only [Bool.or_eq_true, decide_eq_true_eq, not_or, not_lt] at h2
            exact h2

theorem bspline_bin_ok_rows {data : List ℚ} {bins order : ℕ} {X : List (List ℚ)}
    (h : bspline_bin data bins order = Except.ok X) :
    X.length = data.length ∧ ∀ row ∈ X, (∀ q ∈ row, 0 ≤ q) ∧ row.sum = 1 := by
  obtain ⟨h1, h2, rfl, hbnd⟩ := bspline_bin_ok_inv h
  refine ⟨by simp, ?_⟩
  intro row hrow
  rw [List.mem_map] at hrow
  obtain ⟨t, ht, rfl⟩ := hrow
  have hk : order - 1 < bins := by omega
  obtain ⟨hb1, hb2⟩ := hbnd t ht
  exact ⟨designRow_nonneg bins (order - 1) t hk hb1 hb2,
    designRow_sum bins (order - 1) t hk hb1 hb2⟩

theorem getD_nonneg {row : List ℚ} (h : ∀ q ∈ row, 0 ≤ q) (j : ℕ) :
    0 ≤ row.getD j 0 := by
  by_cases hj : j < row.length
  · rw [List.getD_eq_getElem?_getD, List.getElem?_eq_getElem hj]
    exact h _ (List.getElem_mem hj)
  · rw [List.getD_eq_getElem?_getD, List.getElem?_eq_none (by omega)]
    exact le_refl 0

theorem colSum_nonneg {M : List (List ℚ)} (h : ∀ row ∈ M, ∀ q ∈ row, 0 ≤ q)
    (j : ℕ) : 0 ≤ colSum M j := by
  apply List.sum_nonneg
  intro q hq
  rw [List.mem_map] at hq
  obtain ⟨row, hrow, rfl⟩ := hq
  exact getD_nonneg (h row hrow) j

theorem jointSum_nonneg {X Y : List (List ℚ)}
    (hX : ∀ row ∈ X, ∀ q ∈ row, 0 ≤ q) (hY : ∀ row ∈ Y, ∀ q ∈ row, 0 ≤ q)
    (j l : ℕ) : 0 ≤ jointSum X Y j l := by
  apply List.sum_nonneg
  intro q hq
  rw [List.mem_map] at hq
  obtain ⟨rc, hrc, rfl⟩ := hq
  obtain ⟨hr1, hr2⟩ := List.of_mem_zip hrc
  exact mul_nonneg (getD_nonneg (hX _ hr1) j) (getD_nonneg (hY _ hr2) l)

theorem marginalProb_nonneg {M : List (List ℚ)} {bins nDef : ℕ}
    (h : ∀ row ∈ M, ∀ q ∈ row, 0 ≤ q) :
    ∀ q ∈ marginalProb M bins nDef, 0 ≤ q := by
  intro q hq
  rw [marginalProb, List.mem_map] at hq
  obtain ⟨j, _, rfl⟩ := hq
  exact div_nonneg (colSum_nonneg h j) (Nat.cast_nonneg nDef)

theorem jointProb_nonneg {X Y : List (List ℚ)} {bins n : ℕ}
    (hX : ∀ row ∈ X, ∀ q ∈ row, 0 ≤ q) (hY : ∀ row ∈ Y, ∀ q ∈ row, 0 ≤ q) :
    ∀ q ∈ jointProb X Y bins n, 0 ≤ q := by
  intro q hq
  rw [jointProb, List.mem_map] at hq
  obtain ⟨t, _, rfl⟩ := hq
  exact div_nonneg (jointSum_nonneg hX hY _ _) (Nat.cast_nonneg n)

theorem entropyNansum_eq_spec {p : List ℚ} (h : ∀ q ∈ p, 0 ≤ q) :
    entropyNansum p = entropySpec p := by
  unfold entropyNansum entropySpec
  congr 1
  congr 1
  apply List.map_congr_left
  intro q hq
  have hq0 := h q hq
  unfold nanEntropyTerm
  by_cases h0 : q = 0
  · rw [if_pos (le_of_eq h0), if_pos h0]
  · rw [if_neg (by simp only [not_le]; exact lt_of_le_of_ne hq0 (Ne.symm h0)),
      if_neg h0]

theorem colSum_eq (M : List (List ℚ)) (j : ℕ) :
    colSum M j = ∑ i in Finset.range M.length, (M.getD i []).getD j 0 := by
  unfold colSum
  induction M with
  | nil => simp
  | cons row M ih =>
    rw [List.map_cons, List.sum_cons, ih, List.length_cons, Finset.sum_range_succ']
    simp [List.getD_cons_succ, List.getD_cons_zero, add_comm]

theorem jointSum_eq (X : List (List ℚ)) :
    ∀ (Y : List (List ℚ)) (j l : ℕ), X.length = Y.length →
      jointSum X Y j l = ∑ i in Finset.range X.length,
        (X.getD i []).getD j 0 * (Y.getD i []).getD l 0 := by
  induction X with
  | nil => intro Y j l _; simp [jointSum]
  | cons rx X ih =>
    intro Y j l hlen
    cases Y with
    | nil => simp at hlen
    | cons ry Y =>
      unfold jointSum
      rw [List.zip_cons_cons, List.map_cons, List.sum_cons]
      have hih := ih Y j l (by simpa using hlen)
      unfold jointSum at hih
      rw [hih, List.length_cons, Finset.sum_range_succ']
      simp [List.getD_cons_succ, List.getD_cons_zero, add_comm]

theorem filterMap_length_lt {α β : Type} (f : α → Option β) (l : List α)
    (h : ∃ a ∈ l, f a = none) : (l.filterMap f).length < l.length := by
  induction l with
  | nil =>
    obtain ⟨a, ha, -⟩ := h
    cases ha
  | cons b l ih =>
    cases hfb : f b with
    | none =>
      rw [List.filterMap_cons, hfb]
      exact lt_of_le_of_lt (List.length_filterMap_le f l) (Nat.lt_succ_self _)
    | some c =>
      rw [List.filterMap_cons, hfb]
      obtain ⟨a, ha, hfa⟩ := h
      rcases List.mem_cons.mp ha with rfl | hal
      · rw [hfa] at hfb
        exact Option.noConfusion hfb
      · simpa using ih ⟨a, hal, hfa⟩

/-! ### C7: the two normalisation divisors -/

/-- C7: in every computed case the marginal probability vectors are the design
matrix column sums divided by the FILTERED length (the count of jointly defined
positions), the joint probability vector is the column-major flattening of
`transpose(X)·Y` divided by the ORIGINAL pre-filter length `len(x)`, and when
missing values are present these two divisors genuinely differ (the defined
count is strictly below `len(x)`). -/
theorem probability_normalisation (x y : List (Option ℚ)) (bins order : ℕ)
    (c : Bool) (md : ℚ) (X Y : List (List ℚ))
    (h : miOutcomeA x y bins order c md = OutcomeA.probs X Y) :
    marginalProb X bins (xDef x y).length = specMarginal X bins (countDefined x y)
    ∧ marginalProb Y bins (yDef x y).length = specMarginal Y bins (countDefined x y)
    ∧ jointProb X Y bins x.length = specJoint X Y bins x.length
    ∧ ((∃ p ∈ x.zip y, p.1 = none ∨ p.2 = none) →
        countDefined x y < x.length) := by
  obtain ⟨hbx, hby, hxne⟩ := miOutcomeA_probs_inv h
  have hXlen : X.length = (xDef x y).length := (bspline_bin_ok_rows hbx).1
  have hYlen : Y.length = (yDef x y).length := (bspline_bin_ok_rows hby).1
  have hXY : X.length = Y.length := by
    rw [hXlen, hYlen, xDef_length, yDef_length]
  refine ⟨?_, ?_, ?_, ?_⟩
  · unfold marginalProb specMarginal
    apply List.map_congr_left
    intro j _
    rw [colSum_eq, xDef_length]
  · unfold marginalProb specMarginal
    apply List.map_congr_left
    intro j _
    rw [colSum_eq, yDef_length]
  · unfold jointProb specJoint
    apply List.map_congr_left
    intro t _
    rw [jointSum_eq X Y _ _ hXY]
  · rintro ⟨p, hp, hnone⟩
    have h1 : countDefined x y < (x.zip y).length := by
      apply filterMap_length_lt
      refine ⟨p, hp, ?_⟩
      rcases p with ⟨p1, p2⟩
      rcases hnone with h2 | h2
      · subst h2
        rfl
      · subst h2
        cases p1 <;> rfl
    have h2 : (x.zip y).length ≤ x.length := by
      rw [List.length_zip]
      exact Nat.min_le_left _ _
    omega

/-- Concrete evaluation of the estimator's discrete stage on a small example
with one missing value: defined pairs `(0,0)` and `(1,1)`, one bin. -/
theorem miOutcomeA_concrete :
    miOutcomeA [some 0, some 1, none] [some 0, some 1, some 5] 1 1 false 0
      = OutcomeA.probs [[1], [1]] [[1], [1]] := by
  have hbin : bspline_bin [0, 1] 1 1 = Except.ok [[1], [1]] := by
    rw [bspline_bin_ok [0, 1] 1 1 (le_refl 1) (le_refl 1)
      ⟨0, by norm_num, 1, by norm_num, by norm_num⟩]
    norm_num [listMin, listMax, transform_data, designRow, binInterval,
      deBoorB, rat_floor_eq_floor, List.range_succ]
  have hx : xDef [some 0, some 1, none] [some 0, some 1, some 5] = [0, 1] := by
    simp [xDef, definedPairs, List.filterMap_cons]
  have hy : yDef [some 0, some 1, none] [some 0, some 1, some 5] = [0, 1] := by
    simp [yDef, definedPairs, List.filterMap_cons]
  unfold miOutcomeA
  rw [if_neg (by simp), if_neg (by simp), if_neg (by norm_num [xyDefinedTuple]),
    hx, hy, hbin]

theorem probability_normalisation_witness :
    marginalProb [[1], [1]] 1
        (xDef [some 0, some 1, none] [some 0, some 1, some 5]).length
      = specMarginal [[1], [1]] 1
        (countDefined [some 0, some 1, none] [some 0, some 1, some 5])
    ∧ marginalProb [[1], [1]] 1
        (yDef [some 0, some 1, none] [some 0, some 1, some 5]).length
      = specMarginal [[1], [1]] 1
        (countDefined [some 0, some 1, none] [some 0, some 1, some 5])
    ∧ jointProb [[1], [1]] [[1], [1]] 1
        ([some 0, some 1, none] : List (Option ℚ)).length
      = specJoint [[1], [1]] [[1], [1]] 1
        ([some 0, some 1, none] : List (Option ℚ)).length
    ∧ ((∃ p ∈ ([some 0, some 1, none] : List (Option ℚ)).zip
          ([some 0, some 1, some 5] : List (Option ℚ)),
          p.1 = none ∨ p.2 = none) →
        countDefined [some 0, some 1, none] [some 0, some 1, some 5]
          < ([some 0, some 1, none] : List (Option ℚ)).length) :=
  probability_normalisation _ _ 1 1 false 0 [[1], [1]] [[1], [1]]
    miOutcomeA_concrete

/-! ### C8: entropy convention and combination -/

/-- C8: in every computed case (stated here for `correct = false`, before the
separately specified bias correction of C9), the returned value is
`H(p_x) + H(p_y) - H(p_x_y)` where each entropy is the specification's
`-sum_j(p[j] * log2(p[j]))` with any `p[j] = 0` term contributing exactly `0`;
in the code the `0 * log2(0) = NaN` terms are skipped by `nansum`, which
coincides with the spec convention because all probability entries are
non-negative.  The second conjunct records that a zero probability contributes
`0`, not NaN, to the modelled `nansum`. -/
theorem entropy_formula_and_combination (x y : List (Option ℚ))
    (bins order : ℕ) (md : ℚ) (X Y : List (List ℚ))
    (h : miOutcomeA x y bins order false md = OutcomeA.probs X Y) :
    mutual_information x y bins order false md =
      MIResult.value (entropySpec (marginalProb X bins (xDef x y).length)
        + entropySpec (marginalProb Y bins (yDef x y).length)
        - entropySpec (jointProb X Y bins x.length))
    ∧ (∀ q : ℚ, q = 0 → nanEntropyTerm q = 0) := by
  obtain ⟨hbx, hby, -⟩ := miOutcomeA_probs_inv h
  have hXn : ∀ row ∈ X, ∀ q ∈ row, 0 ≤ q :=
    fun row hr => ((bspline_bin_ok_rows hbx).2 row hr).1
  have hYn : ∀ row ∈ Y, ∀ q ∈ row, 0 ≤ q :=
    fun row hr => ((bspline_bin_ok_rows hby).2 row hr).1
  constructor
  · rw [mutual_information_probs h, if_neg (by simp),
      entropyNansum_eq_spec (marginalProb_nonneg hXn),
      entropyNansum_eq_spec (marginalProb_nonneg hYn),
      entropyNansum_eq_spec (jointProb_nonneg hXn hYn)]
  · intro q hq
    rw [nanEntropyTerm, if_pos (le_of_eq hq)]

theorem entropy_formula_and_combination_witness :
    mutual_information [some 0, some 1, none] [some 0, some 1, some 5] 1 1
        false 0 =
      MIResult.value (entropySpec (marginalProb [[1], [1]] 1
          (xDef [some 0, some 1, none] [some 0, some 1, some 5]).length)
        + entropySpec (marginalProb [[1], [1]] 1
          (yDef [some 0, some 1, none] [some 0, some 1, some 5]).length)
        - entropySpec (jointProb [[1], [1]] [[1], [1]] 1
          ([some 0, some 1, none] : List (Option ℚ)).length))
    ∧ (∀ q : ℚ, q = 0 → nanEntropyTerm q = 0) :=
  entropy_formula_and_combination _ _ 1 1 0 [[1], [1]] [[1], [1]]
    miOutcomeA_concrete

/-! ### C9: the finite-size bias correction -/

/-- C9: with `spline_order = 1` (so the configuration check passes), whenever
the uncorrected call returns a float `r`, the `correct = True` call on the
same input returns exactly `r - (bins - 1) / (2 * countDefined)`, where the
divisor counts the jointly-defined (NaN-filtered) positions — not the original
sample length; and `correct = False` subtracts nothing (its value is the
baseline `r`). -/
theorem bias_correction_term (x y : List (Option ℚ)) (bins : ℕ) (md : ℚ)
    (r : ℝ) (h : mutual_information x y bins 1 false md = MIResult.value r) :
    mutual_information x y bins 1 true md =
      MIResult.value (r - ((bins : ℝ) - 1)
        / (2 * ((countDefined x y : ℕ) : ℝ))) := by
  have hco : miOutcomeA x y bins 1 true md = miOutcomeA x y bins 1 false md := by
    unfold miOutcomeA
    rw [if_neg (show ¬ (1 < 1 ∧ true = true) by simp),
      if_neg (show ¬ (1 < 1 ∧ false = true) by simp)]
  cases hA : miOutcomeA x y bins 1 false md with
  | configError =>
    rw [mutual_information_configError hA] at h
    exact MIResult.noConfusion h
  | uncaught =>
    rw [mutual_information_uncaught hA] at h
    exact MIResult.noConfusion h
  | notComputable =>
    rw [mutual_information_nc hA] at h
    exact MIResult.noConfusion h
  | probs X Y =>
    rw [mutual_information_probs hA, if_neg (by simp)] at h
    injection h with hr
    rw [mutual_information_probs (hco.trans hA), if_pos rfl, hr, xDef_length]

theorem bias_correction_term_witness :
    mutual_information [some 0, some 1, none] [some 0, some 1, some 5] 1 1
        true 0 =
      MIResult.value ((entropyNansum (marginalProb [[1], [1]] 1
            (xDef [some 0, some 1, none] [some 0, some 1, some 5]).length)
          + entropyNansum (marginalProb [[1], [1]] 1
            (yDef [some 0, some 1, none] [some 0, some 1, some 5]).length)
          - entropyNansum (jointProb [[1], [1]] [[1], [1]] 1
            ([some 0, some 1, none] : List (Option ℚ)).length))
        - (((1 : ℕ) : ℝ) - 1) / (2 * ((countDefined [some 0, some 1, none]
            [some 0, some 1, some 5] : ℕ) : ℝ))) :=
  bias_correction_term _ _ 1 0 _
    (by rw [mutual_information_probs miOutcomeA_concrete, if_neg (by simp)])

/-! ### C6: symmetry of the estimator -/

theorem xyDefinedTuple_length (x y : List (Option ℚ)) :
    (xyDefinedTuple x y).length = 1 := rfl

theorem definedPairs_swap (x y : List (Option ℚ)) :
    definedPairs y x = (definedPairs x y).map Prod.swap := by
  unfold definedPairs
  rw [← List.zip_swap x y, List.filterMap_map, List.map_filterMap]
  congr 1
  funext p
  rcases p with ⟨a, b⟩
  cases a <;> cases b <;> rfl

theorem xDef_swap (x y : List (Option ℚ)) : xDef y x = yDef x y := by
  unfold xDef yDef
  rw [definedPairs_swap, List.map_map]
  congr 1

theorem yDef_swap (x y : List (Option ℚ)) : yDef y x = xDef x y := by
  unfold xDef yDef
  rw [definedPairs_swap, List.map_map]
  congr 1

theorem jointSum_swap (X Y : List (List ℚ)) (j l : ℕ) :
    jointSum Y X j l = jointSum X Y l j := by
  unfold jointSum
  rw [← List.zip_swap X Y, List.map_map]
  congr 1
  apply List.map_congr_left
  intro p _
  rcases p with ⟨rx, ry⟩
  simp only [Function.comp_apply, Prod.swap_prod_mk]
  exact mul_comm _ _

theorem sum_range_sq_swap (f : ℕ → ℕ → ℝ) (b : ℕ) :
    ∑ t in Finset.range (b * b), f (t % b) (t / b)
      = ∑ t in Finset.range (b * b), f (t / b) (t % b) := by
  rcases Nat.eq_zero_or_pos b with rfl | hb
  · simp
  · have eMod : ∀ t, t / b < b → (t % b * b + t / b) % b = t / b := by
      intro t h2
      rw [Nat.mul_comm (t % b) b, Nat.mul_add_mod]
      exact Nat.mod_eq_of_lt h2
    have eDiv : ∀ t, t / b < b → (t % b * b + t / b) / b = t % b := by
      intro t h2
      rw [Nat.mul_comm (t % b) b, Nat.add_comm (b * (t % b)) (t / b),
        Nat.add_mul_div_left _ _ hb, Nat.div_eq_of_lt h2]
      omega
    have key : ∀ t ∈ Finset.range (b * b), t % b * b + t / b ∈ Finset.range (b * b) := by
      intro t ht
      rw [Finset.mem_range] at ht ⊢
      have h1 : t % b < b := Nat.mod_lt _ hb
      have h2 : t / b < b := (Nat.div_lt_iff_lt_mul hb).mpr (by omega)
      have h4 : t % b * b ≤ (b - 1) * b := Nat.mul_le_mul_right b (by omega)
      have h5 : (b - 1) * b + b = b * b := by
        cases b with
        | zero => omega
        | succ n => simp [Nat.succ_sub_one]; ring
      omega
    have hdiv : ∀ t, t < b * b → t / b < b :=
      fun t ht => (Nat.div_lt_iff_lt_mul hb).mpr (by omega)
    have inv : ∀ t ∈ Finset.range (b * b),
        (t % b * b + t / b) % b * b + (t % b * b + t / b) / b = t := by
      intro t ht
      rw [Finset.mem_range] at ht
      rw [eMod t (hdiv t ht), eDiv t (hdiv t ht), Nat.mul_comm]
      exact Nat.div_add_mod t b
    refine Finset.sum_nbij' (fun t => t % b * b + t / b) (fun t => t % b * b + t / b)
      key key inv inv ?_
    intro t ht
    rw [Finset.mem_range] at ht
    rw [eMod t (hdiv t ht), eDiv t (hdiv t ht)]

theorem entropy_jointProb_swap (X Y : List (List ℚ)) (b n : ℕ) :
    entropyNansum (jointProb Y X b n) = entropyNansum (jointProb X Y b n) := by
  unfold entropyNansum jointProb
  rw [List.map_map, List.map_map, list_range_map_sum, list_range_map_sum]
  congr 1
  have e1 : ∀ t, (nanEntropyTerm ∘ fun t => jointSum Y X (t % b) (t / b) / (n : ℚ)) t
      = (fun j l => nanEntropyTerm (jointSum X Y j l / (n : ℚ))) (t / b) (t % b) := by
    intro t
    simp only [Function.comp_apply]
    rw [jointSum_swap]
  rw [Finset.sum_congr rfl (fun t _ => e1 t)]
  rw [← sum_range_sq_swap (fun j l => nanEntropyTerm (jointSum X Y j l / (n : ℚ))) b]
  exact Finset.sum_congr rfl (fun t _ => rfl)

/-- C6: `mutual_information` is symmetric in its two samples: for equal-length
inputs the two calls produce literally the same result — the same raised
error, the sentinel for `(x, y)` exactly when for `(y, x)`, and exactly equal
float values (stronger than the claimed 1e-9 agreement). -/
theorem mutual_information_symmetric (x y : List (Option ℚ)) (bins order : ℕ)
    (c : Bool) (md : ℚ) (hlen : x.length = y.length) :
    mutual_information x y bins order c md
      = mutual_information y x bins order c md := by
  by_cases hcfg : 1 < order ∧ c = true
  · have e1 : miOutcomeA x y bins order c md = OutcomeA.configError := by
      unfold miOutcomeA
      rw [if_pos hcfg]
    have e2 : miOutcomeA y x bins order c md = OutcomeA.configError := by
      unfold miOutcomeA
      rw [if_pos hcfg]
    rw [mutual_information_configError e1, mutual_information_configError e2]
  · by_cases hxe : x = []
    · have hye : y = [] := by
        subst hxe
        exact List.length_eq_zero.mp hlen.symm
      have e1 : miOutcomeA x y bins order c md = OutcomeA.uncaught := by
        unfold miOutcomeA
        rw [if_neg hcfg, if_pos hxe]
      have e2 : miOutcomeA y x bins order c md = OutcomeA.uncaught := by
        unfold miOutcomeA
        rw [if_neg hcfg, if_pos hye]
      rw [mutual_information_uncaught e1, mutual_information_uncaught e2]
    · have hye : y ≠ [] := by
        intro h
        apply hxe
        rw [h] at hlen
        exact List.length_eq_zero.mp hlen
      by_cases hg : ((xyDefinedTuple x y).length : ℚ) / (x.length : ℚ) < md
      · have hg2 : ((xyDefinedTuple y x).length : ℚ) / (y.length : ℚ) < md := by
          rw [xyDefinedTuple_length] at hg ⊢
          rw [← hlen]
          exact hg
        have e1 : miOutcomeA x y bins order c md = OutcomeA.notComputable := by
          unfold miOutcomeA
          rw [if_neg hcfg, if_neg hxe, if_pos hg]
        have e2 : miOutcomeA y x bins order c md = OutcomeA.notComputable := by
          unfold miOutcomeA
          rw [if_neg hcfg, if_neg hye, if_pos hg2]
        rw [mutual_information_nc e1, mutual_information_nc e2]
      · have hg2 : ¬ ((xyDefinedTuple y x).length : ℚ) / (y.length : ℚ) < md := by
          rw [xyDefinedTuple_length] at hg ⊢
          rw [← hlen]
          exact hg
        rcases Nat.eq_zero_or_pos order with rfl | hord
        · have e1 : miOutcomeA x y bins 0 c md = OutcomeA.uncaught := by
            unfold miOutcomeA
            rw [if_neg hcfg, if_neg hxe, if_neg hg, bspline_bin_zero_order]
          have e2 : miOutcomeA y x bins 0 c md = OutcomeA.uncaught := by
            unfold miOutcomeA
            rw [if_neg hcfg, if_neg hye, if_neg hg2, bspline_bin_zero_order]
          rw [mutual_information_uncaught e1, mutual_information_uncaught e2]
        · cases hbx : bspline_bin (xDef x y) bins order with
          | error e =>
            have he : e = PyErr.valueError := by
              cases e
              · rfl
              · exact absurd hbx (bspline_bin_ne_indexError _ _ _ hord)
            subst he
            have h1 : miOutcomeA x y bins order c md = OutcomeA.notComputable := by
              unfold miOutcomeA
              rw [if_neg hcfg, if_neg hxe, if_neg hg, hbx]
            have h2 : miOutcomeA y x bins order c md = OutcomeA.notComputable := by
              unfold miOutcomeA
              rw [if_neg hcfg, if_neg hye, if_neg hg2, xDef_swap x y, yDef_swap x y]
              cases hby : bspline_bin (yDef x y) bins order with
              | error e2 =>
                have he2 : e2 = PyErr.valueError := by
                  cases e2
                  · rfl
                  · exact absurd hby (bspline_bin_ne_indexError _ _ _ hord)
                subst he2
                rfl
              | ok Y => rw [hbx]
            rw [mutual_information_nc h1, mutual_information_nc h2]
          | ok X =>
            cases hby : bspline_bin (yDef x y) bins order with
            | error e =>
              have he : e = PyErr.valueError := by
                cases e
                · rfl
                · exact absurd hby (bspline_bin_ne_indexError _ _ _ hord)
              subst he
              have h1 : miOutcomeA x y bins order c md = OutcomeA.notComputable := by
                unfold miOutcomeA
                rw [if_neg hcfg, if_neg hxe, if_neg hg, hbx, hby]
              have h2 : miOutcomeA y x bins order c md = OutcomeA.notComputable := by
                unfold miOutcomeA
                rw [if_neg hcfg, if_neg hye, if_neg hg2, xDef_swap x y, yDef_swap x y, hby]
              rw [mutual_information_nc h1, mutual_information_nc h2]
            | ok Y =>
              have h1 : miOutcomeA x y bins order c md = OutcomeA.probs X Y := by
                unfold miOutcomeA
                rw [if_neg hcfg, if_neg hxe, if_neg hg, hbx, hby]
              have h2 : miOutcomeA y x bins order c md = OutcomeA.probs Y X := by
                unfold miOutcomeA
                rw [if_neg hcfg, if_neg hye, if_neg hg2, xDef_swap x y, yDef_swap x y,
                  hby, hbx]
              rw [mutual_information_probs h1, mutual_information_probs h2,
                xDef_swap x y, yDef_swap x y, ← hlen,
                entropy_jointProb_swap X Y bins x.length,
                xDef_length, yDef_length,
                add_comm (entropyNansum (marginalProb Y bins (countDefined x y)))
                  (entropyNansum (marginalProb X bins (countDefined x y)))]

theorem mutual_information_symmetric_witness :
    mutual_information [some 2, some 7, none] [some 1, none, some 4] 10 3 false (1/5)
      = mutual_information [some 1, none, some 4] [some 2, some 7, none] 10 3 false (1/5) :=
  mutual_information_symmetric [some 2, some 7, none] [some 1, none, some 4]
    10 3 false (1/5) rfl
